import Mathlib

/-!
Verification of the Memex bulk-import core: a shallow embedding of the
persistent chunked queue (`ImportStateManager`), the cancellable processing
engine (`ImportProgressManager`) and the estimate-cache module, together with
proofs of the specified properties.

`browser.storage.local` is modelled as an insertion-ordered association list
from string keys to stored values; a stored value is either a chunk (an
insertion-ordered key→item object) or a key stack (an array of strings).
-/

namespace Memex

/-- A chunk: a JS object mapping item keys to items, in insertion order. -/
abbrev Chunk (α : Type) := List (String × α)

/-- A value persisted in `browser.storage.local`: either a chunk record or a
key-stack record. -/
inductive SVal (α : Type) where
  | chunk : Chunk α → SVal α
  | stack : List String → SVal α
deriving DecidableEq

/-- The `browser.storage.local` namespace: an association list of records. -/
abbrev Storage (α : Type) := List (String × SVal α)

/-- Read a record (`browser.storage.local.get` of a single key, no default). -/
def storGet {α : Type} : Storage α → String → Option (SVal α)
  | [], _ => none
  | (k', v) :: s, k => if k' = k then some v else storGet s k

/-- Write a record (`browser.storage.local.set` of a single key): replaces an
existing record in place, otherwise appends a new one. -/
def storSet {α : Type} : Storage α → String → SVal α → Storage α
  | [], k, v => [(k, v)]
  | (k', v') :: s, k, v =>
    if k' = k then (k, v) :: s else (k', v') :: storSet s k v

/-- Remove a list of records (`browser.storage.local.remove`). -/
def storRemove {α : Type} (s : Storage α) (ks : List String) : Storage α :=
  s.filter (fun p => decide (p.1 ∉ ks))

/-- Look a key up in a chunk object. -/
def objGet {α : Type} : Chunk α → String → Option α
  | [], _ => none
  | (k', v) :: c, k => if k' = k then some v else objGet c k

/-- Delete a key from a chunk object (the rest-destructuring in the source:
`const { [itemKey]: itemToRemove, ...remainingChunk } = chunk`). -/
def objDelete {α : Type} (c : Chunk α) (k : String) : Chunk α :=
  c.filter (fun p => decide (p.1 ≠ k))

/-- Assign a key in a chunk object (`existingChunk[itemKey] = item`): an
existing key keeps its position, a new key is appended. -/
def objSet {α : Type} : Chunk α → String → α → Chunk α
  | [], k, v => [(k, v)]
  | (k', v') :: c, k, v =>
    if k' = k then (k, v) :: c else (k', v') :: objSet c k v

/-- `new Map(entries)`: later entries override earlier ones for the same key,
first-insertion order is kept. -/
def mapOfList {α : Type} (l : List (String × α)) : List (String × α) :=
  l.foldl (fun m p => objSet m p.1 p.2) []

/-- Modelled from the spec: `mapToObject` (src/util/map-set-helpers, not under
src/) converts a Map into a plain object holding the same key→value entries in
the same iteration order.  Maps and objects are both insertion-ordered
association lists in this embedding, so the conversion is the identity. -/
def mapToObject {α : Type} (l : List (String × α)) : List (String × α) := l

/-- `new Map([...a, ...b])`: merge two maps, entries of `b` winning. -/
def mapMerge {α : Type} (a b : List (String × α)) : List (String × α) :=
  mapOfList (a ++ b)

/-- The keys of an input map / chunk, in order. -/
def keysOf {α : Type} (l : List (String × α)) : List String :=
  l.map Prod.fst

/-! ## The State Manager (`ImportStateManager`)

In-memory fields of the class together with the persistent storage it owns.
The write-only field `currErrChunk` (assigned by `rehydrateState`, never read)
is omitted. -/

def STATE_STORAGE_KEY : String := "import-state-manager"
def ERR_STATE_STORAGE_KEY : String := "import-err-state-manager"
def STORAGE_PREFIX : String := "import-items-"
def ERR_STORAGE_PREFIX : String := "err-import-items-"
def DEF_CHUNK_SIZE : Nat := 100

/-- The state of an `ImportStateManager` instance plus its storage. -/
structure SM (α : Type) where
  chunkSize : Nat
  storageKeyStack : List String
  errStorageKeyStack : List String
  storage : Storage α
deriving DecidableEq

/-- A freshly constructed manager over empty storage. -/
def initSM (α : Type) (chunkSize : Nat) : SM α :=
  { chunkSize := chunkSize, storageKeyStack := [], errStorageKeyStack := [],
    storage := [] }

def getNextChunkKey {α : Type} (sm : SM α) : String :=
  STORAGE_PREFIX ++ Nat.repr sm.storageKeyStack.length

def getNextErrChunkKey {α : Type} (sm : SM α) : String :=
  ERR_STORAGE_PREFIX ++ Nat.repr sm.errStorageKeyStack.length

/-- `getChunk(chunkKey)`: reads `storage[chunkKey]` and pairs it with the key.
A missing record reads as `none` (JS `undefined`); a stack-valued record never
lives under a chunk key in reachable states and also reads as `none`. -/
def getChunk {α : Type} (st : Storage α) (chunkKey : String) :
    String × Option (Chunk α) :=
  (chunkKey,
    match storGet st chunkKey with
    | some (SVal.chunk c) => some c
    | _ => none)

/-- `getErrItems()`: one `(chunkKey, chunk)` pair per error-stack key. -/
def getErrItems {α : Type} (sm : SM α) : List (String × Option (Chunk α)) :=
  sm.errStorageKeyStack.map (getChunk sm.storage)

/-- `getItems(includeErrs)`: main-stack chunks in stack order, then the error
ones when requested. -/
def getItems {α : Type} (sm : SM α) (includeErrs : Bool) :
    List (String × Option (Chunk α)) :=
  sm.storageKeyStack.map (getChunk sm.storage) ++
    (if includeErrs then getErrItems sm else [])

/-- The keys of a possibly-missing chunk (`keys(chunk)`; lodash `keys` of
`undefined` is the empty list). -/
def chunkKeysOf {α : Type} : Option (Chunk α) → List String
  | some c => keysOf c
  | none => []

/-- `checkErrExists(key)`: does `key` occur in some error chunk? -/
def checkErrExists {α : Type} (sm : SM α) (key : String) : Bool :=
  (getErrItems sm).any (fun p => (chunkKeysOf p.2).contains key)

/-- `diffAgainstState(inputMap)`: filter the entries through every main chunk,
then rebuild a Map from what is left. -/
def diffAgainstState {α β : Type} (sm : SM α) (inputMap : List (String × β)) :
    List (String × β) :=
  mapOfList ((getItems sm false).foldl
    (fun entries p => entries.filter (fun e => decide (e.1 ∉ chunkKeysOf p.2)))
    inputMap)

/-- `splitChunks(map)`: successive slices of `chunkSize` entries, each turned
into a chunk object.  The source loop (`i += this.chunkSize`) does not
terminate when `chunkSize = 0`; that case is unreachable under the claims'
assumption `chunkSize ≥ 1` and returns `[]` here. -/
def splitChunks {α : Type} (csize : Nat) (pairs : List (String × α)) :
    List (Chunk α) :=
  match csize, pairs with
  | _, [] => []
  | 0, _ :: _ => []
  | c + 1, p :: ps =>
    mapToObject (mapOfList (List.take (c + 1) (p :: ps))) ::
      splitChunks (c + 1) (List.drop c ps)
termination_by pairs.length
decreasing_by simp [List.length_drop]; omega

/-- `addChunk(chunk)`: generate the next main chunk key, push it onto the
in-memory stack, then persist the chunk together with the updated key-stack
record (the persisted stack is read back from storage, not from memory). -/
def addChunk {α : Type} (sm : SM α) (chunk : Chunk α) : SM α :=
  let chunkKey := getNextChunkKey sm
  let oldKeyState :=
    match storGet sm.storage STATE_STORAGE_KEY with
    | some (SVal.stack s) => s
    | _ => []
  { sm with
    storageKeyStack := sm.storageKeyStack ++ [chunkKey],
    storage :=
      storSet (storSet sm.storage chunkKey (SVal.chunk chunk))
        STATE_STORAGE_KEY (SVal.stack (oldKeyState ++ [chunkKey])) }

def addChunks {α : Type} (sm : SM α) (cs : List (Chunk α)) : SM α :=
  cs.foldl addChunk sm

/-- `addItems(itemsMap)`: no-op on an empty map, otherwise add every chunk of
`splitChunks(itemsMap)`. -/
def addItems {α : Type} (sm : SM α) (itemsMap : List (String × α)) : SM α :=
  if itemsMap.isEmpty then sm
  else addChunks sm (splitChunks sm.chunkSize itemsMap)

/-- `removeItem(chunkKey, itemKey)`: read the chunk (empty-object default),
delete the entry, persist the remainder, return the removed item. -/
def removeItem {α : Type} (sm : SM α) (chunkKey itemKey : String) :
    SM α × Option α :=
  let chunk :=
    match storGet sm.storage chunkKey with
    | some (SVal.chunk c) => c
    | _ => []
  let itemToRemove := objGet chunk itemKey
  ({ sm with
     storage := storSet sm.storage chunkKey (SVal.chunk (objDelete chunk itemKey)) },
   itemToRemove)

/-- `flagAsError(chunkKey, itemKey)`: remove the item from its main chunk, then
append it to the error stack — guarded by the check the source actually
performs (`if (!await this.checkErrExists(itemKey)) return`), which returns
early precisely when the key is NOT yet in the error stack.  When the removed
item is `none` (JS `undefined`) the assignment `existingChunk[itemKey] = item`
stores an `undefined` value, which the storage serializer drops: the persisted
chunk then lacks `itemKey`. -/
def flagAsError {α : Type} (sm : SM α) (chunkKey itemKey : String) : SM α :=
  let r := removeItem sm chunkKey itemKey
  let sm1 := r.1
  let item := r.2
  if checkErrExists sm1 itemKey = false then sm1
  else
    let pair :=
      if sm1.errStorageKeyStack.isEmpty then
        (ERR_STORAGE_PREFIX ++ "0",
         sm1.errStorageKeyStack ++ [ERR_STORAGE_PREFIX ++ "0"])
      else (sm1.errStorageKeyStack.getLastD "", sm1.errStorageKeyStack)
    let existingChunk :=
      match storGet sm1.storage pair.1 with
      | some (SVal.chunk c) => c
      | _ => []
    let triple :=
      if sm1.chunkSize ≤ existingChunk.length then
        (ERR_STORAGE_PREFIX ++ Nat.repr pair.2.length,
         pair.2 ++ [ERR_STORAGE_PREFIX ++ Nat.repr pair.2.length],
         ([] : Chunk α))
      else (pair.1, pair.2, existingChunk)
    let finalChunk :=
      match item with
      | some v => objSet triple.2.2 itemKey v
      | none => objDelete triple.2.2 itemKey
    { sm1 with
      errStorageKeyStack := triple.2.1,
      storage :=
        storSet (storSet sm1.storage triple.1 (SVal.chunk finalChunk))
          ERR_STATE_STORAGE_KEY (SVal.stack triple.2.1) }

/-- `clearItems()`: remove every record named by the in-memory main key stack
together with the main key-stack record, then reset the in-memory main stack. -/
def clearItems {α : Type} (sm : SM α) : SM α :=
  { sm with
    storage := storRemove sm.storage (sm.storageKeyStack ++ [STATE_STORAGE_KEY]),
    storageKeyStack := [] }

/-! ## The Progress Manager (`ImportProgressManager`)

`processItem` and the chunk loop of `start()` are embedded as state
transformers over the State Manager.  The asynchronous behaviour of one run is
captured by a schedule assigning each scheduled chunk entry the outcome of its
`processImportItem` call; effects of distinct items are applied in scheduling
order (the cooperative single-threaded model of the spec, each item's
post-processing step taken atomically). -/

/-- The import-item type tags (`IMPORT_TYPE`). -/
inductive IType where
  | history
  | bookmark
  | old
deriving DecidableEq

/-- A queued import item; the payload consumed by the external processor is
irrelevant to the progress manager, which only reads `importItem.type`. -/
structure ImportItem where
  type : IType
deriving DecidableEq

/-- The message passed to `afterItemCb` — `{ type, url, status, error }`.  The
local `url` of `processItem` is declared but never assigned in the source, so
the field is always `none`. -/
structure Report where
  type : IType
  url : Option String
  status : Option Nat
  error : Option String
deriving DecidableEq

/-- How one `processImportItem` call settles: resolution with a status,
rejection with an ordinary error message, or rejection with the dedicated
cancellation signal (`err.cancelled`). -/
inductive Outcome where
  | ok : Nat → Outcome
  | fail : String → Outcome
  | cancelled : Outcome
deriving DecidableEq

/-- `processItem(chunkKey)(entry)` given the outcome of the processor call:
on cancellation the error is rethrown and the `finally` block does nothing; on
any other outcome the after-item callback fires and the item is removed from
its chunk.  Returns the new state, the report passed to `afterItemCb` (if
any), and whether the cancellation signal was rethrown. -/
def processItem (sm : SM ImportItem) (chunkKey : String)
    (entry : String × ImportItem) (out : Outcome) :
    SM ImportItem × Option Report × Bool :=
  match out with
  | Outcome.cancelled => (sm, none, true)
  | Outcome.ok s =>
    ((removeItem sm chunkKey entry.1).1,
     some { type := entry.2.type, url := none, status := some s, error := none },
     false)
  | Outcome.fail m =>
    ((removeItem sm chunkKey entry.1).1,
     some { type := entry.2.type, url := none, status := none, error := some m },
     false)

/-- Run the scheduled entries of one chunk.  Entries beyond the schedule were
never handed to the processor (`stop()` arrived first) and are left untouched. -/
def runChunk : SM ImportItem → String → List (String × ImportItem) →
    List Outcome → SM ImportItem × List Report
  | sm, _, _, [] => (sm, [])
  | sm, _, [], _ => (sm, [])
  | sm, ck, e :: es, o :: os =>
    let r := processItem sm ck e o
    let rest := runChunk r.1 ck es os
    (rest.1, r.2.1.toList ++ rest.2)

/-- Did some scheduled entry of the chunk reject with the cancellation signal
(making `runConcurrent.map` reject and the chunk loop `break`)? -/
def chunkCancelled (entries : List (String × ImportItem))
    (outcomes : List Outcome) : Bool :=
  (entries.zip outcomes).any (fun p => decide (p.2 = Outcome.cancelled))

/-- The chunk loop of `start()`: drain the main key stack in order, running
each chunk's entries (`Object.entries(chunk)`) under its schedule; a
cancellation rejection breaks the loop.  A missing chunk record makes
`Object.entries` throw, which the loop catches and logs before moving on —
observationally the same as running an empty entry list. -/
def startRun : SM ImportItem → List String → List (List Outcome) →
    SM ImportItem × List Report
  | sm, [], _ => (sm, [])
  | sm, ck :: cks, sched =>
    let c :=
      match storGet sm.storage ck with
      | some (SVal.chunk c) => c
      | _ => []
    let os := sched.headD []
    let r := runChunk sm ck c os
    if chunkCancelled c os then r
    else
      let rest := startRun r.1 cks sched.tail
      (rest.1, r.2 ++ rest.2)

/-- `start()` over the current main key stack. -/
def start (sm : SM ImportItem) (sched : List (List Outcome)) :
    SM ImportItem × List Report :=
  startRun sm sm.storageKeyStack sched

/-- The entries of a chunk that survive a stopped run: those whose operation
rejected with the cancellation signal, plus those never scheduled. -/
def survivors : List (String × ImportItem) → List Outcome →
    List (String × ImportItem)
  | es, [] => es
  | [], _ => []
  | e :: es, Outcome.cancelled :: os => e :: survivors es os
  | _ :: es, Outcome.ok _ :: os => survivors es os
  | _ :: es, Outcome.fail _ :: os => survivors es os

/-- The keys of the entries that settled (resolved or ordinarily failed). -/
def settledKeys : List (String × ImportItem) → List Outcome → List String
  | _, [] => []
  | [], _ => []
  | _ :: es, Outcome.cancelled :: os => settledKeys es os
  | e :: es, Outcome.ok _ :: os => e.1 :: settledKeys es os
  | e :: es, Outcome.fail _ :: os => e.1 :: settledKeys es os

/-- The after-item reports of a run: one per settled entry, none for a
cancelled one. -/
def settledReports : List (String × ImportItem) → List Outcome → List Report
  | _, [] => []
  | [], _ => []
  | _ :: es, Outcome.cancelled :: os => settledReports es os
  | e :: es, Outcome.ok s :: os =>
    { type := e.2.type, url := none, status := some s, error := none } ::
      settledReports es os
  | e :: es, Outcome.fail m :: os =>
    { type := e.2.type, url := none, status := none, error := some m } ::
      settledReports es os

/-! ## The concurrency scheduler (claim C9)

`start()` runs the entries of the current chunk through
`this.runConcurrent = promiseLimit(value)` and `await`s the whole chunk before
the loop advances.  The `promise-limit` library is an external collaborator
(not part of this repository); its scheduling is modelled from the spec. -/

def CONCURR_LIMIT : Nat := 5

/-- The `concurrency` setter: accepted only for `0 < value ≤ CONCURR_LIMIT`,
otherwise silently ignored. -/
def setConcurrency (current value : Nat) : Nat :=
  if 0 < value ∧ value ≤ CONCURR_LIMIT then value else current

/-- A snapshot of one run of the chunk loop: the number of operations in
flight, the number of entries of the current chunk not yet handed to the pool,
and the sizes of the chunks not yet begun. -/
structure PMState where
  concurrency : Nat
  inflight : Nat
  queued : Nat
  restChunks : List Nat
deriving DecidableEq

/-- Modelled from the spec: the scheduling steps of `promise-limit` (an
external library, not under src/) driving the chunk loop of `start()` — a new
operation starts only when fewer than `concurrency` are in flight, an
in-flight operation may settle at any time, and the loop begins the next chunk
only once the current chunk has no in-flight and no queued work left. -/
inductive PMStep : PMState → PMState → Prop where
  | spawn (s : PMState) (h : s.inflight < s.concurrency) (hq : 0 < s.queued) :
      PMStep s { s with inflight := s.inflight + 1, queued := s.queued - 1 }
  | settle (s : PMState) (h : 0 < s.inflight) :
      PMStep s { s with inflight := s.inflight - 1 }
  | nextChunk (s : PMState) (n : Nat) (rest : List Nat)
      (hi : s.inflight = 0) (hq : s.queued = 0) (hr : s.restChunks = n :: rest) :
      PMStep s { s with queued := n, restChunks := rest }

/-- Reachability under the scheduler steps. -/
def PMReach : PMState → PMState → Prop :=
  Relation.ReflTransGen PMStep

/-! ## The estimate cache (`import-estimates.js`) -/

/-- Modelled from the spec: `differMaps` (src/util/map-set-helpers, not under
src/) removes from its second map every key present in the first — "removing
bookmark-type candidates from the history-type set". -/
def differMaps {α : Type} (a b : List (String × α)) : List (String × α) :=
  b.filter (fun p => decide (p.1 ∉ keysOf a))

/-- The per-type accumulation of enumerated candidate groups
(`items[type] = new Map([...items[type], ...data])`, starting empty). -/
def collectItems {α : Type} (groups : List (IType × List (String × α)))
    (t : IType) : List (String × α) :=
  groups.foldl (fun acc g => if g.1 = t then mapMerge acc g.2 else acc) []

/-- Completed and remaining counts per import type. -/
structure Counts where
  history : Int
  bookmark : Int
  old : Int
deriving DecidableEq

/-- The persisted estimate snapshot: counts plus the computation timestamp. -/
structure EstimateSnapshot where
  completed : Counts
  remaining : Counts
  calculatedAt : Int
deriving DecidableEq

/-- `calcEstimateCounts(items)`: completed counts from the external data store
(`pageCount`/`bookmarkCount` rows, `numOldDone` from storage), remaining
counts from the candidate map sizes; the completed history count is
`pageDocs.length - bookmarkDocs.length`, replaced by `0` when negative. -/
def calcEstimateCounts {α : Type} (pageCount bookmarkCount : Nat)
    (numOldDone : Int) (items : IType → List (String × α)) : Counts × Counts :=
  let completedHistory : Int := (pageCount : Int) - (bookmarkCount : Int)
  ({ history := if completedHistory < 0 then 0 else completedHistory,
     bookmark := (bookmarkCount : Int),
     old := numOldDone },
   { history := ((items IType.history).length : Int),
     bookmark := ((items IType.bookmark).length : Int),
     old := ((items IType.old).length : Int) })

/-- One day in milliseconds (`moment().subtract(1, 'day')`). -/
def dayMs : Int := 86400000

/-- The default export of `import-estimates.js`.  `getStoredEsts` /
`setStoredEsts` (src/imports/index, not under src/) are modelled from the
spec: the former returns the persisted snapshot `prevResult`, the latter
persists the freshly computed counts stamped with the current time.  The
returned flag records whether a fresh snapshot was computed and persisted. -/
def getEstimateCounts {α : Type} (prevResult : EstimateSnapshot) (now : Int)
    (forceRecalc : Bool) (groups : List (IType × List (String × α)))
    (pageCount bookmarkCount : Nat) (numOldDone : Int) :
    EstimateSnapshot × Bool :=
  if forceRecalc = false ∧ prevResult.calculatedAt > now - dayMs then
    (prevResult, false)
  else
    let itemsB := collectItems groups IType.bookmark
    let itemsO := collectItems groups IType.old
    let itemsH := differMaps itemsB (collectItems groups IType.history)
    let items : IType → List (String × α) := fun t =>
      match t with
      | IType.history => itemsH
      | IType.bookmark => itemsB
      | IType.old => itemsO
    let r := calcEstimateCounts pageCount bookmarkCount numOldDone items
    ({ completed := r.1, remaining := r.2, calculatedAt := now }, true)

/-! ## Decimal key indices

Chunk keys are `<prefix><stack length>` with the index rendered in decimal
(`Nat.repr`); distinct indices give distinct keys. -/

/-- The numeric value of a decimal digit character. -/
def decDigitVal (c : Char) : Nat := c.toNat - 48

/-- The value of a big-endian list of decimal digit characters. -/
def decValue : List Char → Nat
  | [] => 0
  | c :: cs => decDigitVal c * 10 ^ cs.length + decValue cs

theorem decValue_append_singleton (l : List Char) (c : Char) :
    decValue (l ++ [c]) = 10 * decValue l + decDigitVal c := by
  induction l with
  | nil => simp [decValue]
  | cons x xs ih =>
    simp only [List.cons_append, decValue, List.append_eq, ih,
      List.length_append, List.length_singleton]
    ring

theorem decDigitVal_digitChar {d : Nat} (h : d < 10) :
    decDigitVal (Nat.digitChar d) = d := by
  interval_cases d <;> decide

theorem toDigitsCore_append (b fuel n : Nat) (ds : List Char) :
    Nat.toDigitsCore b fuel n ds = Nat.toDigitsCore b fuel n [] ++ ds := by
  induction fuel generalizing n ds with
  | zero => simp [Nat.toDigitsCore]
  | succ f ih =>
    simp only [Nat.toDigitsCore]
    by_cases h : n / b = 0
    · simp [h]
    · simp only [h, if_false]
      rw [ih (n / b) (Nat.digitChar (n % b) :: ds),
        ih (n / b) [Nat.digitChar (n % b)], List.append_assoc]
      rfl

theorem decValue_toDigitsCore (fuel n : Nat) (h : n < fuel) :
    decValue (Nat.toDigitsCore 10 fuel n []) = n ∧
      Nat.toDigitsCore 10 fuel n [] ≠ [] := by
  induction fuel generalizing n with
  | zero => omega
  | succ f ih =>
    simp only [Nat.toDigitsCore]
    by_cases h0 : n / 10 = 0
    · have hn : n < 10 := by omega
      simp only [h0, if_true, decValue, pow_zero, List.length_nil]
      refine ⟨?_, by simp⟩
      rw [decDigitVal_digitChar (Nat.mod_lt n (by norm_num))]
      omega
    · have hdiv : n / 10 < f := by omega
      simp only [h0, if_false]
      rcases ih (n / 10) hdiv with ⟨hv, hne⟩
      rw [toDigitsCore_append, decValue_append_singleton, hv,
        decDigitVal_digitChar (Nat.mod_lt n (by omega))]
      exact ⟨by omega, by simp⟩

theorem decValue_toDigits (n : Nat) : decValue (Nat.toDigits 10 n) = n :=
  (decValue_toDigitsCore (n + 1) n (Nat.lt_succ_self n)).1

theorem natRepr_injective {m n : Nat} (h : Nat.repr m = Nat.repr n) : m = n := by
  have hd : Nat.toDigits 10 m = Nat.toDigits 10 n := by
    have := congrArg String.data h
    simpa [Nat.repr, List.asString] using this
  calc m = decValue (Nat.toDigits 10 m) := (decValue_toDigits m).symm
    _ = decValue (Nat.toDigits 10 n) := by rw [hd]
    _ = n := decValue_toDigits n

theorem string_append_cancel {a b c : String} (h : a ++ b = a ++ c) : b = c := by
  have hd := congrArg String.data h
  simp only [String.data_append] at hd
  have hbc := List.append_cancel_left hd
  cases b; cases c; exact congrArg String.mk hbc

/-- Distinct stack positions generate distinct main chunk keys. -/
theorem mainKey_injective {i j : Nat}
    (h : STORAGE_PREFIX ++ Nat.repr i = STORAGE_PREFIX ++ Nat.repr j) : i = j :=
  natRepr_injective (string_append_cancel h)

/-- A generated main chunk key never collides with the key-stack record key. -/
theorem mainKey_ne_stateKey (i : Nat) :
    STORAGE_PREFIX ++ Nat.repr i ≠ STATE_STORAGE_KEY := by
  intro h
  have hd := congrArg String.data h
  simp only [String.data_append, STORAGE_PREFIX, STATE_STORAGE_KEY] at hd
  have h13 := congrArg (List.take 13) hd
  rw [List.take_left' (by decide)] at h13
  exact absurd h13 (by decide)

/-! ## Association-list lemmas -/

section AssocLemmas

variable {α : Type}


theorem storGet_storSet_self (s : Storage α) (k : String) (v : SVal α) :
    storGet (storSet s k v) k = some v := by
  induction s with
  | nil => simp [storSet, storGet]
  | cons p s ih =>
    obtain ⟨a, b⟩ := p
    by_cases h : a = k
    · simp [storSet, storGet, h]
    · simp [storSet, storGet, h, ih]

theorem storGet_storSet_ne (s : Storage α) (k : String) (v : SVal α)
    {k' : String} (h : k' ≠ k) : storGet (storSet s k v) k' = storGet s k' := by
  have hk : ¬ k = k' := fun hh => h hh.symm
  induction s with
  | nil => simp [storSet, storGet, hk]
  | cons p s ih =>
    obtain ⟨a, b⟩ := p
    by_cases hp : a = k
    · subst hp
      simp [storSet, storGet, hk]
    · by_cases hp' : a = k'
      · simp [storSet, storGet, hp, hp', h]
      · simp [storSet, storGet, hp, hp', ih]

theorem storSet_self (s : Storage α) (k : String) (v : SVal α)
    (h : storGet s k = some v) : storSet s k v = s := by
  induction s with
  | nil => simp [storGet] at h
  | cons p s ih =>
    obtain ⟨a, b⟩ := p
    by_cases hp : a = k
    · simp only [storGet, hp, if_true, Option.some.injEq] at h
      simp [storSet, hp, h]
    · simp only [storGet, hp, if_false] at h
      simp [storSet, hp, ih h]

theorem storGet_storRemove (s : Storage α) (ks : List String) (k : String) :
    storGet (storRemove s ks) k = if k ∈ ks then none else storGet s k := by
  induction s with
  | nil => simp [storRemove, storGet]
  | cons p s ih =>
    obtain ⟨a, b⟩ := p
    by_cases hmem : a ∈ ks
    · have hstep : storRemove ((a, b) :: s) ks = storRemove s ks := by
        simp [storRemove, List.filter_cons, hmem]
      rw [hstep, ih]
      by_cases hk : k ∈ ks
      · simp [hk]
      · have hak : ¬ a = k := fun hh => hk (hh ▸ hmem)
        simp [hk, storGet, hak]
    · have hstep : storRemove ((a, b) :: s) ks = (a, b) :: storRemove s ks := by
        simp [storRemove, List.filter_cons, hmem]
      rw [hstep]
      by_cases hp : a = k
      · subst hp
        simp [storGet, hmem]
      · simp [storGet, hp, ih]

theorem objGet_objDelete_self (c : Chunk α) (k : String) :
    objGet (objDelete c k) k = none := by
  induction c with
  | nil => simp [objDelete, objGet]
  | cons p c ih =>
    obtain ⟨a, b⟩ := p
    by_cases hp : a = k
    · simpa [objDelete, List.filter_cons, hp] using ih
    · simpa [objDelete, List.filter_cons, hp, objGet] using ih

theorem objGet_objDelete_ne (c : Chunk α) (k : String) {k' : String}
    (h : k' ≠ k) : objGet (objDelete c k) k' = objGet c k' := by
  have hk : ¬ k = k' := fun hh => h hh.symm
  induction c with
  | nil => simp [objDelete]
  | cons p c ih =>
    obtain ⟨a, b⟩ := p
    by_cases hp : a = k
    · have hstep : objDelete ((a, b) :: c) k = objDelete c k := by
        simp [objDelete, List.filter_cons, hp]
      have ha' : ¬ a = k' := by rw [hp]; exact hk
      rw [hstep, ih]
      simp [objGet, ha']
    · have hstep : objDelete ((a, b) :: c) k = (a, b) :: objDelete c k := by
        simp [objDelete, List.filter_cons, hp]
      rw [hstep]
      by_cases hp' : a = k'
      · simp [objGet, hp']
      · simp [objGet, hp', ih]

theorem objGet_eq_none_of_not_mem (c : Chunk α) {k : String}
    (h : k ∉ keysOf c) : objGet c k = none := by
  induction c with
  | nil => simp [objGet]
  | cons p c ih =>
    obtain ⟨a, b⟩ := p
    simp only [keysOf, List.map_cons, List.mem_cons, not_or] at h
    have ha : ¬ a = k := fun hh => h.1 hh.symm
    simp only [objGet, ha, if_false]
    exact ih (by simpa [keysOf] using h.2)

theorem objDelete_of_not_mem (c : Chunk α) {k : String} (h : k ∉ keysOf c) :
    objDelete c k = c := by
  induction c with
  | nil => rfl
  | cons p c ih =>
    obtain ⟨a, b⟩ := p
    simp only [keysOf, List.map_cons, List.mem_cons, not_or] at h
    have ha : ¬ a = k := fun hh => h.1 hh.symm
    have htail : objDelete c k = c := ih (by simpa [keysOf] using h.2)
    simp [objDelete, List.filter_cons, ha] at htail ⊢
    exact htail

theorem objSet_append_of_not_mem (c : Chunk α) {k : String} (v : α)
    (h : k ∉ keysOf c) : objSet c k v = c ++ [(k, v)] := by
  induction c with
  | nil => rfl
  | cons p c ih =>
    obtain ⟨a, b⟩ := p
    simp only [keysOf, List.map_cons, List.mem_cons, not_or] at h
    have ha : ¬ a = k := fun hh => h.1 hh.symm
    simp [objSet, ha, ih (by simpa [keysOf] using h.2)]

theorem foldl_objSet_fresh (l : List (String × α)) :
    ∀ acc : List (String × α), (keysOf l).Nodup →
    (∀ k ∈ keysOf l, k ∉ keysOf acc) →
    l.foldl (fun m p => objSet m p.1 p.2) acc = acc ++ l := by
  induction l with
  | nil => intro acc _ _; simp
  | cons p l ih =>
    intro acc hnd hdisj
    obtain ⟨a, b⟩ := p
    simp only [keysOf, List.map_cons, List.nodup_cons] at hnd
    simp only [List.foldl_cons]
    rw [objSet_append_of_not_mem acc b (hdisj a (by simp [keysOf]))]
    rw [ih (acc ++ [(a, b)]) (by simpa [keysOf] using hnd.2) ?_]
    · simp
    · intro k hk
      have hk' : k ∈ keysOf ((a, b) :: l) := by
        simp only [keysOf, List.map_cons, List.mem_cons]
        exact Or.inr (by simpa [keysOf] using hk)
      simp only [keysOf, List.map_append, List.map_cons, List.map_nil,
        List.mem_append, List.mem_singleton, not_or]
      refine ⟨hdisj k hk', ?_⟩
      intro hkp
      exact hnd.1 (by simpa [keysOf, hkp] using hk)

theorem mapOfList_eq_self (l : List (String × α)) (h : (keysOf l).Nodup) :
    mapOfList l = l := by
  simpa [mapOfList] using foldl_objSet_fresh l [] h (by simp [keysOf])

end AssocLemmas

/-- Clamping below at zero, written as the source's conditional. -/
theorem ite_lt_zero_eq_max (x : Int) : (if x < 0 then (0 : Int) else x) = max 0 x := by
  rcases lt_or_le x 0 with h | h
  · simp [h, max_eq_left h.le]
  · simp [not_lt.mpr h, max_eq_right h]

/-! ## Claim theorems -/

/-- C10: for every database state, the completed-history count produced by the
estimate calculation equals the number of page records minus the number of
bookmark records clamped below at zero, and is therefore never negative, even
when bookmark records outnumber page records. -/
theorem calcEstimateCounts_history_clamped {α : Type}
    (pageCount bookmarkCount : Nat) (numOldDone : Int)
    (items : IType → List (String × α)) :
    (calcEstimateCounts pageCount bookmarkCount numOldDone items).1.history =
      max 0 ((pageCount : Int) - (bookmarkCount : Int)) ∧
    0 ≤ (calcEstimateCounts pageCount bookmarkCount numOldDone items).1.history := by
  constructor
  · simpa [calcEstimateCounts] using
      ite_lt_zero_eq_max ((pageCount : Int) - (bookmarkCount : Int))
  · simp only [calcEstimateCounts]
    split
    · exact le_refl 0
    · omega

/-- C8: the estimate fetch returns the persisted snapshot unchanged, with no
recomputation and no new persistence, exactly when `forceRecalc` is false and
the snapshot's timestamp lies within the last 24 hours; otherwise it
recomputes from the enumerated candidates — removing bookmark-type keys from
the history-type candidate set — combines them with the completed counts,
persists the fresh snapshot stamped with the current time, and returns it. -/
theorem getEstimateCounts_cache_policy {α : Type} (prev : EstimateSnapshot)
    (now : Int) (forceRecalc : Bool)
    (groups : List (IType × List (String × α)))
    (pageCount bookmarkCount : Nat) (numOldDone : Int) :
    (forceRecalc = false ∧ prev.calculatedAt > now - dayMs →
      getEstimateCounts prev now forceRecalc groups pageCount bookmarkCount
        numOldDone = (prev, false)) ∧
    (forceRecalc = true ∨ prev.calculatedAt ≤ now - dayMs →
      getEstimateCounts prev now forceRecalc groups pageCount bookmarkCount
        numOldDone =
        ({ completed :=
             { history := max 0 ((pageCount : Int) - (bookmarkCount : Int)),
               bookmark := (bookmarkCount : Int),
               old := numOldDone },
           remaining :=
             { history :=
                 (((collectItems groups IType.history).filter (fun p =>
                     decide (p.1 ∉ keysOf (collectItems groups IType.bookmark)))).length : Int),
               bookmark := ((collectItems groups IType.bookmark).length : Int),
               old := ((collectItems groups IType.old).length : Int) },
           calculatedAt := now }, true)) := by
  constructor
  · rintro ⟨hf, ht⟩
    simp [getEstimateCounts, hf, ht]
  · intro hcase
    have hcond : ¬ (forceRecalc = false ∧ prev.calculatedAt > now - dayMs) := by
      rcases hcase with h | h
      · rintro ⟨hf, _⟩
        rw [h] at hf
        cases hf
      · rintro ⟨_, ht⟩
        exact absurd ht (not_lt.mpr h)
    simp only [getEstimateCounts, hcond, if_false]
    have hmax : (if ((pageCount : Int) - (bookmarkCount : Int)) < 0 then (0 : Int)
        else (pageCount : Int) - (bookmarkCount : Int)) =
        max 0 ((pageCount : Int) - (bookmarkCount : Int)) :=
      ite_lt_zero_eq_max _
    simp [calcEstimateCounts, differMaps, ← hmax]

/-- C8 witness: a stored snapshot less than a day old is returned untouched
when `forceRecalc` is false, and `forceRecalc = true` triggers the
recomputation path on a concrete candidate list. -/
theorem getEstimateCounts_cache_policy_holds :
    getEstimateCounts (α := Nat) ⟨⟨1, 2, 3⟩, ⟨4, 5, 6⟩, 1000⟩ 2000 false
        [] 3 5 0 = (⟨⟨1, 2, 3⟩, ⟨4, 5, 6⟩, 1000⟩, false) ∧
    getEstimateCounts (α := Nat) ⟨⟨1, 2, 3⟩, ⟨4, 5, 6⟩, 1000⟩ 2000 true
        [(IType.history, [("u", 1), ("v", 2)]), (IType.bookmark, [("u", 9)])]
        3 5 2 =
      ({ completed := { history := max 0 ((3 : Int) - (5 : Int)), bookmark := 5, old := 2 },
         remaining :=
           { history :=
               ((([(("u" : String), (1 : Nat)), ("v", 2)] : List (String × Nat)).filter (fun p =>
                   decide (p.1 ∉ keysOf [(("u" : String), (9 : Nat))]))).length : Int),
             bookmark := 1, old := 0 },
         calculatedAt := 2000 }, true) := by
  constructor
  · exact (getEstimateCounts_cache_policy (α := Nat) ⟨⟨1, 2, 3⟩, ⟨4, 5, 6⟩, 1000⟩
      2000 false [] 3 5 0).1 ⟨rfl, by decide⟩
  · have h := (getEstimateCounts_cache_policy (α := Nat) ⟨⟨1, 2, 3⟩, ⟨4, 5, 6⟩, 1000⟩
      2000 true
      [(IType.history, [("u", 1), ("v", 2)]), (IType.bookmark, [("u", 9)])]
      3 5 2).2 (Or.inl rfl)
    rw [h]
    rfl

/-- C1: the claim is the documented intent — an item present in its main chunk
whose key is in no error chunk should be moved into the last error chunk — but
the guard in `flagAsError` is inverted (`if (!await this.checkErrExists(itemKey))
return`), so precisely such an item is removed from its main chunk and then
dropped: the error stack stays empty and no error record is written. -/
theorem flagAsError_drops_fresh_error :
    (let sm : SM Nat :=
      { chunkSize := 100, storageKeyStack := ["import-items-0"],
        errStorageKeyStack := [],
        storage := [("import-items-0", SVal.chunk [("a", 7)]),
                    (STATE_STORAGE_KEY, SVal.stack ["import-items-0"])] }
     let sm2 := flagAsError sm "import-items-0" "a"
     objGet [("a", (7 : Nat))] "a" = some 7 ∧
     checkErrExists sm "a" = false ∧
     storGet sm2.storage "import-items-0" = some (SVal.chunk []) ∧
     sm2.errStorageKeyStack = [] ∧
     checkErrExists sm2 "a" = false ∧
     storGet sm2.storage ERR_STATE_STORAGE_KEY = none) := by
  decide

/-- C5 counterexample: the claim quantifies over every `chunkKey`, but when no
record is persisted under `chunkKey` the call is not a no-op on state — the
empty-object default is written back, creating a chunk record that did not
exist before (while still returning nothing). -/
theorem removeItem_missing_chunk_not_noop :
    (removeItem (initSM Nat 100) "import-items-0" "a").1 ≠ initSM Nat 100 ∧
    (removeItem (initSM Nat 100) "import-items-0" "a").2 = none ∧
    storGet (initSM Nat 100).storage "import-items-0" = none ∧
    storGet (removeItem (initSM Nat 100) "import-items-0" "a").1.storage
      "import-items-0" = some (SVal.chunk []) := by
  decide

/-- C5 (amended): for every `chunkKey` holding a persisted chunk record and
every `itemKey`, `removeItem` persists the chunk with that entry deleted and
all other entries unchanged, keeps the (possibly empty) chunk record
persisted, leaves the key stacks and every other record unchanged, and returns
the removed item — or nothing when the item was absent, in which case the call
is a no-op on state; when no record exists under `chunkKey`, the call instead
persists a fresh empty chunk record and returns nothing. -/
theorem removeItem_spec {α : Type} (sm : SM α) (chunkKey itemKey : String) :
    (∀ c : Chunk α, storGet sm.storage chunkKey = some (SVal.chunk c) →
      (removeItem sm chunkKey itemKey).2 = objGet c itemKey ∧
      storGet (removeItem sm chunkKey itemKey).1.storage chunkKey =
        some (SVal.chunk (objDelete c itemKey)) ∧
      objGet (objDelete c itemKey) itemKey = none ∧
      (∀ k, k ≠ itemKey → objGet (objDelete c itemKey) k = objGet c k) ∧
      (∀ k, k ≠ chunkKey →
        storGet (removeItem sm chunkKey itemKey).1.storage k =
          storGet sm.storage k) ∧
      (removeItem sm chunkKey itemKey).1.storageKeyStack = sm.storageKeyStack ∧
      (removeItem sm chunkKey itemKey).1.errStorageKeyStack =
        sm.errStorageKeyStack ∧
      (removeItem sm chunkKey itemKey).1.chunkSize = sm.chunkSize ∧
      (itemKey ∉ keysOf c →
        (removeItem sm chunkKey itemKey).1 = sm ∧
        (removeItem sm chunkKey itemKey).2 = none)) ∧
    (storGet sm.storage chunkKey = none →
      storGet (removeItem sm chunkKey itemKey).1.storage chunkKey =
        some (SVal.chunk []) ∧
      (removeItem sm chunkKey itemKey).2 = none) := by
  constructor
  · intro c h
    have hred : removeItem sm chunkKey itemKey =
        ({ sm with storage :=
            storSet sm.storage chunkKey (SVal.chunk (objDelete c itemKey)) },
         objGet c itemKey) := by
      simp only [removeItem, h]
    rw [hred]
    refine ⟨rfl, storGet_storSet_self _ _ _, objGet_objDelete_self c itemKey,
      ?_, ?_, rfl, rfl, rfl, ?_⟩
    · intro k hk
      exact objGet_objDelete_ne c itemKey hk
    · intro k hk
      exact storGet_storSet_ne sm.storage chunkKey _ hk
    · intro habs
      refine ⟨?_, objGet_eq_none_of_not_mem c habs⟩
      rw [show objDelete c itemKey = c from objDelete_of_not_mem c habs,
        storSet_self sm.storage chunkKey (SVal.chunk c) h]
  · intro h
    have hred : removeItem sm chunkKey itemKey =
        ({ sm with storage :=
            storSet sm.storage chunkKey (SVal.chunk (objDelete [] itemKey)) },
         objGet [] itemKey) := by
      simp only [removeItem, h]
    rw [hred]
    exact ⟨storGet_storSet_self _ _ _, rfl⟩

/-- C5 witness: the spec's scenario — removing the only entry of a one-entry
chunk `{a: 1}` persists `{}` under the chunk key — obtained from the amended
theorem at a concrete state; the missing-record branch is exercised on an
empty storage. -/
theorem removeItem_spec_holds :
    storGet (removeItem
      ({ chunkSize := 100, storageKeyStack := ["import-items-0"],
         errStorageKeyStack := [],
         storage := [("import-items-0", SVal.chunk [("a", (1 : Nat))])] } : SM Nat)
      "import-items-0" "a").1.storage "import-items-0" =
      some (SVal.chunk (objDelete [("a", (1 : Nat))] "a")) ∧
    storGet (removeItem (initSM Nat 100) "import-items-0" "a").1.storage
      "import-items-0" = some (SVal.chunk []) := by
  have h1 := (removeItem_spec
    ({ chunkSize := 100, storageKeyStack := ["import-items-0"],
       errStorageKeyStack := [],
       storage := [("import-items-0", SVal.chunk [("a", (1 : Nat))])] } : SM Nat)
    "import-items-0" "a").1 [("a", 1)] rfl
  have h2 := (removeItem_spec (initSM Nat 100) "import-items-0" "a").2 rfl
  exact ⟨h1.2.1, h2.1⟩

/-- C6: `clearItems()` removes the record of every chunk key on the in-memory
main key stack and the persisted main key-stack record, and resets the
in-memory main stack to empty, while the error-chunk records, the persisted
error key-stack record and the in-memory error key stack are untouched
(provided, as in every reachable state, the error keys are distinct from the
main-stack keys and from the main stack record key). -/
theorem clearItems_spec {α : Type} (sm : SM α)
    (h1 : ERR_STATE_STORAGE_KEY ∉ sm.storageKeyStack)
    (h2 : ∀ k ∈ sm.errStorageKeyStack, k ∉ sm.storageKeyStack)
    (h3 : ∀ k ∈ sm.errStorageKeyStack, k ≠ STATE_STORAGE_KEY) :
    (clearItems sm).storageKeyStack = [] ∧
    storGet (clearItems sm).storage STATE_STORAGE_KEY = none ∧
    (∀ k ∈ sm.storageKeyStack, storGet (clearItems sm).storage k = none) ∧
    storGet (clearItems sm).storage ERR_STATE_STORAGE_KEY =
      storGet sm.storage ERR_STATE_STORAGE_KEY ∧
    (∀ k ∈ sm.errStorageKeyStack,
      storGet (clearItems sm).storage k = storGet sm.storage k) ∧
    (clearItems sm).errStorageKeyStack = sm.errStorageKeyStack ∧
    (clearItems sm).chunkSize = sm.chunkSize := by
  refine ⟨rfl, ?_, ?_, ?_, ?_, rfl, rfl⟩
  · rw [show (clearItems sm).storage =
      storRemove sm.storage (sm.storageKeyStack ++ [STATE_STORAGE_KEY]) from rfl]
    rw [storGet_storRemove]
    simp
  · intro k hk
    rw [show (clearItems sm).storage =
      storRemove sm.storage (sm.storageKeyStack ++ [STATE_STORAGE_KEY]) from rfl]
    rw [storGet_storRemove]
    simp [hk]
  · rw [show (clearItems sm).storage =
      storRemove sm.storage (sm.storageKeyStack ++ [STATE_STORAGE_KEY]) from rfl]
    rw [storGet_storRemove]
    have : ERR_STATE_STORAGE_KEY ∉ sm.storageKeyStack ++ [STATE_STORAGE_KEY] := by
      simp only [List.mem_append, List.mem_singleton, not_or]
      exact ⟨h1, by decide⟩
    simp [this]
  · intro k hk
    rw [show (clearItems sm).storage =
      storRemove sm.storage (sm.storageKeyStack ++ [STATE_STORAGE_KEY]) from rfl]
    rw [storGet_storRemove]
    have : k ∉ sm.storageKeyStack ++ [STATE_STORAGE_KEY] := by
      simp only [List.mem_append, List.mem_singleton, not_or]
      exact ⟨h2 k hk, h3 k hk⟩
    simp [this]

/-- C6 witness: a concrete state with one main chunk, one error chunk and both
stack records, cleared. -/
theorem clearItems_spec_holds :
    (clearItems
      ({ chunkSize := 100, storageKeyStack := ["import-items-0"],
         errStorageKeyStack := ["err-import-items-0"],
         storage := [("import-items-0", SVal.chunk [("a", (1 : Nat))]),
                     (STATE_STORAGE_KEY, SVal.stack ["import-items-0"]),
                     ("err-import-items-0", SVal.chunk [("b", 2)]),
                     (ERR_STATE_STORAGE_KEY, SVal.stack ["err-import-items-0"])] }
        : SM Nat)).storageKeyStack = [] ∧
    storGet (clearItems
      ({ chunkSize := 100, storageKeyStack := ["import-items-0"],
         errStorageKeyStack := ["err-import-items-0"],
         storage := [("import-items-0", SVal.chunk [("a", (1 : Nat))]),
                     (STATE_STORAGE_KEY, SVal.stack ["import-items-0"]),
                     ("err-import-items-0", SVal.chunk [("b", 2)]),
                     (ERR_STATE_STORAGE_KEY, SVal.stack ["err-import-items-0"])] }
        : SM Nat)).storage STATE_STORAGE_KEY = none := by
  have h := clearItems_spec
    ({ chunkSize := 100, storageKeyStack := ["import-items-0"],
       errStorageKeyStack := ["err-import-items-0"],
       storage := [("import-items-0", SVal.chunk [("a", (1 : Nat))]),
                   (STATE_STORAGE_KEY, SVal.stack ["import-items-0"]),
                   ("err-import-items-0", SVal.chunk [("b", 2)]),
                   (ERR_STATE_STORAGE_KEY, SVal.stack ["err-import-items-0"])] }
      : SM Nat) (by decide) (by decide) (by decide)
  exact ⟨h.1, h.2.1⟩

/-- Folding per-chunk filters over a list of chunks equals one filter by
absence from every chunk. -/
theorem foldl_filter_not_in_chunks {α β : Type}
    (chunks : List (String × Option (Chunk α))) (l : List (String × β)) :
    chunks.foldl (fun entries p =>
        entries.filter (fun e => decide (e.1 ∉ chunkKeysOf p.2))) l =
      l.filter (fun e => decide (∀ p ∈ chunks, e.1 ∉ chunkKeysOf p.2)) := by
  induction chunks generalizing l with
  | nil => simp
  | cons c cs ih =>
    simp only [List.foldl_cons]
    rw [ih, List.filter_filter]
    congr 1
    funext e
    by_cases h1 : e.1 ∈ chunkKeysOf c.2 <;>
      by_cases h2 : ∀ p ∈ cs, e.1 ∉ chunkKeysOf p.2 <;>
        simp [h1, h2, List.forall_mem_cons]

/-- C7: for every candidate map (with the distinct keys of a JS Map) and every
state of the main chunks, `diffAgainstState` returns exactly the submap of the
candidates whose keys appear in no main chunk; in particular no returned key
is already present in a main chunk. -/
theorem diffAgainstState_spec {α β : Type} (sm : SM α)
    (inputMap : List (String × β)) (hnd : (keysOf inputMap).Nodup) :
    diffAgainstState sm inputMap =
      inputMap.filter (fun e =>
        decide (∀ p ∈ getItems sm false, e.1 ∉ chunkKeysOf p.2)) ∧
    ∀ e ∈ diffAgainstState sm inputMap, ∀ p ∈ getItems sm false,
      e.1 ∉ chunkKeysOf p.2 := by
  have hfiltnd : (keysOf (inputMap.filter (fun e =>
      decide (∀ p ∈ getItems sm false, e.1 ∉ chunkKeysOf p.2)))).Nodup := by
    exact List.Nodup.sublist ((List.filter_sublist inputMap).map Prod.fst) hnd
  have heq : diffAgainstState sm inputMap =
      inputMap.filter (fun e =>
        decide (∀ p ∈ getItems sm false, e.1 ∉ chunkKeysOf p.2)) := by
    rw [diffAgainstState, foldl_filter_not_in_chunks,
      mapOfList_eq_self _ hfiltnd]
  refine ⟨heq, ?_⟩
  intro e he p hp
  rw [heq] at he
  have hmem := (List.mem_filter.mp he).2
  rw [decide_eq_true_eq] at hmem
  exact hmem p hp

/-- C7 witness: a pending key is filtered out of a concrete candidate map, a
fresh one is kept. -/
theorem diffAgainstState_spec_holds :
    diffAgainstState
      ({ chunkSize := 100, storageKeyStack := ["import-items-0"],
         errStorageKeyStack := [],
         storage := [("import-items-0", SVal.chunk [("a", (1 : Nat))])] } : SM Nat)
      [("a", (9 : Nat)), ("x", 7)] =
      List.filter (fun e =>
        decide (∀ p ∈ getItems
          ({ chunkSize := 100, storageKeyStack := ["import-items-0"],
             errStorageKeyStack := [],
             storage := [("import-items-0", SVal.chunk [("a", (1 : Nat))])] } : SM Nat)
          false, e.1 ∉ chunkKeysOf p.2)) [("a", (9 : Nat)), ("x", 7)] :=
  (diffAgainstState_spec
    ({ chunkSize := 100, storageKeyStack := ["import-items-0"],
       errStorageKeyStack := [],
       storage := [("import-items-0", SVal.chunk [("a", (1 : Nat))])] } : SM Nat)
    [("a", (9 : Nat)), ("x", 7)] (by decide)).1

theorem splitChunks_nil {α : Type} (c : Nat) :
    splitChunks (α := α) c [] = [] := by
  rw [splitChunks]

theorem splitChunks_cons {α : Type} (c : Nat) (p : String × α)
    (ps : List (String × α)) :
    splitChunks (c + 1) (p :: ps) =
      mapToObject (mapOfList (List.take (c + 1) (p :: ps))) ::
        splitChunks (c + 1) (List.drop c ps) := by
  rw [splitChunks]

theorem splitChunks_flatten {α : Type} (c : Nat) :
    ∀ pairs : List (String × α), (keysOf pairs).Nodup →
      (splitChunks (c + 1) pairs).flatten = pairs
  | [], _ => by simp [splitChunks_nil]
  | p :: ps, hnd => by
    rw [splitChunks_cons]
    have hndtake : (keysOf (List.take (c + 1) (p :: ps))).Nodup := by
      exact List.Nodup.sublist ((List.take_sublist _ _).map Prod.fst) hnd
    have hnddrop : (keysOf (List.drop c ps)).Nodup := by
      refine List.Nodup.sublist ((List.drop_sublist _ _).map Prod.fst) ?_
      simpa [keysOf] using (List.nodup_cons.mp (by simpa [keysOf] using hnd)).2
    rw [List.flatten_cons, mapToObject, mapOfList_eq_self _ hndtake,
      splitChunks_flatten c (List.drop c ps) hnddrop]
    exact List.take_append_drop (c + 1) (p :: ps)
termination_by pairs => pairs.length
decreasing_by simp [List.length_drop]; omega

theorem splitChunks_length {α : Type} (c : Nat) :
    ∀ pairs : List (String × α),
      (splitChunks (c + 1) pairs).length = (pairs.length + c) / (c + 1)
  | [] => by
    rw [splitChunks_nil]
    simp [Nat.div_eq_of_lt (show c < c + 1 by omega)]
  | p :: ps => by
    rw [splitChunks_cons]
    simp only [List.length_cons, splitChunks_length c (List.drop c ps),
      List.length_drop]
    have hr : ps.length + 1 + c = ps.length + (c + 1) := by omega
    rw [hr, Nat.add_div_right _ (by omega)]
    rcases le_or_lt ps.length c with h | h
    · have h1 : ps.length - c = 0 := by omega
      rw [h1, Nat.zero_add, Nat.div_eq_of_lt (by omega),
        Nat.div_eq_of_lt (by omega)]
    · have h1 : ps.length - c + c = ps.length := by omega
      rw [h1]
termination_by pairs => pairs.length
decreasing_by simp [List.length_drop]; omega

theorem splitChunks_sizes {α : Type} (c : Nat) :
    ∀ pairs : List (String × α), (keysOf pairs).Nodup → pairs ≠ [] →
      (splitChunks (c + 1) pairs).map List.length =
        List.replicate ((splitChunks (c + 1) pairs).length - 1) (c + 1) ++
          [if pairs.length % (c + 1) = 0 then c + 1 else pairs.length % (c + 1)]
  | [], _, hne => absurd rfl hne
  | p :: ps, hnd, _ => by
    have hndtake : (keysOf (List.take (c + 1) (p :: ps))).Nodup := by
      exact List.Nodup.sublist ((List.take_sublist _ _).map Prod.fst) hnd
    have hnddrop : (keysOf (List.drop c ps)).Nodup := by
      refine List.Nodup.sublist ((List.drop_sublist _ _).map Prod.fst) ?_
      simpa [keysOf] using (List.nodup_cons.mp (by simpa [keysOf] using hnd)).2
    have hhead : (mapToObject (mapOfList (List.take (c + 1) (p :: ps)))).length =
        min (c + 1) (ps.length + 1) := by
      rw [mapToObject, mapOfList_eq_self _ hndtake, List.length_take,
        List.length_cons]
    rcases le_or_lt ps.length c with hle | hgt
    · have hdropnil : List.drop c ps = [] := by
        apply List.drop_eq_nil_of_le
        omega
      rw [splitChunks_cons, hdropnil, splitChunks_nil]
      simp only [List.map_cons, List.map_nil, List.length_cons,
        List.length_nil, hhead]
      have hmin : min (c + 1) (ps.length + 1) = ps.length + 1 := by omega
      rw [hmin]
      rcases Nat.lt_or_ge (ps.length + 1) (c + 1) with hlt | hge
      · rw [Nat.mod_eq_of_lt hlt]
        simp [show ¬ ps.length + 1 = 0 by omega]
      · have heqc : ps.length + 1 = c + 1 := by omega
        rw [heqc]
        simp
    · have hdropne : List.drop c ps ≠ [] := by
        intro hcon
        have := congrArg List.length hcon
        simp only [List.length_drop, List.length_nil] at this
        omega
      have ih := splitChunks_sizes c (List.drop c ps) hnddrop hdropne
      rw [splitChunks_cons]
      simp only [List.map_cons, List.length_cons, hhead, ih,
        List.length_drop]
      have hmin : min (c + 1) (ps.length + 1) = c + 1 := by omega
      have hmod : (ps.length - c) % (c + 1) = (ps.length + 1) % (c + 1) := by
        have h1 : ps.length + 1 = (ps.length - c) + (c + 1) := by omega
        rw [h1, Nat.add_mod_right]
      have hlen1 : 1 ≤ (splitChunks (c + 1) (List.drop c ps)).length := by
        rcases hlc : List.drop c ps with _ | ⟨q, qs⟩
        · exact absurd hlc hdropne
        · rw [splitChunks_cons]
          simp
      have hrep : List.replicate
          ((splitChunks (c + 1) (List.drop c ps)).length + 1 - 1) (c + 1) =
          (c + 1) :: List.replicate
            ((splitChunks (c + 1) (List.drop c ps)).length - 1) (c + 1) := by
        rw [Nat.add_sub_cancel]
        rcases Nat.exists_eq_add_of_le hlen1 with ⟨m, hm⟩
        rw [hm, Nat.add_comm 1 m, List.replicate_succ]
        simp [Nat.add_sub_cancel]
      rw [hmin, hmod, hrep]
      simp
termination_by pairs => pairs.length
decreasing_by simp [List.length_drop]; omega

theorem addChunks_stack_length {α : Type} (cs : List (Chunk α)) :
    ∀ sm : SM α, (addChunks sm cs).storageKeyStack.length =
      sm.storageKeyStack.length + cs.length := by
  induction cs with
  | nil => intro sm; simp [addChunks]
  | cons c cs ih =>
    intro sm
    simp only [addChunks, List.foldl_cons] at ih ⊢
    rw [ih]
    simp only [addChunk, List.length_append, List.length_cons,
      List.length_nil, List.length_cons]
    omega

/-- C3: for a map of `n` entries (the distinct keys of a JS Map) and chunk
size `c ≥ 1`, `addItems` partitions the map in input iteration order into
⌈n/c⌉ chunks — each of exactly `c` entries except the last, which holds
`n mod c` entries (or `c` when `n mod c = 0`) — appending one main-stack key
per chunk; on an empty input map `addItems` returns the state unchanged. -/
theorem addItems_chunking {α : Type} (sm : SM α) (pairs : List (String × α))
    (hc : 1 ≤ sm.chunkSize) (hnd : (keysOf pairs).Nodup) :
    addItems sm [] = sm ∧
    (splitChunks sm.chunkSize pairs).flatten = pairs ∧
    (splitChunks sm.chunkSize pairs).length =
      (pairs.length + sm.chunkSize - 1) / sm.chunkSize ∧
    (pairs ≠ [] →
      (splitChunks sm.chunkSize pairs).map List.length =
        List.replicate ((splitChunks sm.chunkSize pairs).length - 1)
            sm.chunkSize ++
          [if pairs.length % sm.chunkSize = 0 then sm.chunkSize
           else pairs.length % sm.chunkSize]) ∧
    (addItems sm pairs).storageKeyStack.length =
      sm.storageKeyStack.length +
        (pairs.length + sm.chunkSize - 1) / sm.chunkSize := by
  obtain ⟨c, hceq⟩ : ∃ c, sm.chunkSize = c + 1 := ⟨sm.chunkSize - 1, by omega⟩
  have hlen : (splitChunks sm.chunkSize pairs).length =
      (pairs.length + sm.chunkSize - 1) / sm.chunkSize := by
    rw [hceq, splitChunks_length c pairs]
    congr 1
  refine ⟨by simp [addItems], ?_, hlen, ?_, ?_⟩
  · rw [hceq]
    exact splitChunks_flatten c pairs hnd
  · intro hne
    rw [hceq] at hlen ⊢
    rw [splitChunks_sizes c pairs hnd hne]
  · rcases hp : pairs with _ | ⟨q, qs⟩
    · simp only [addItems, List.isEmpty_nil, if_true, List.length_nil]
      have : (0 + sm.chunkSize - 1) / sm.chunkSize = 0 :=
        Nat.div_eq_of_lt (by omega)
      omega
    · rw [← hp]
      have hne : pairs.isEmpty = false := by
        rw [hp]
        rfl
      simp only [addItems, hne, Bool.false_eq_true, if_false]
      rw [addChunks_stack_length, hlen]

/-- C3 witness: the spec's scenario — `chunkSize = 2`,
`addItems({a:1, b:2, c:3})` — yields chunks of sizes `[2, 1]`, flattening back
to the input, with two keys pushed onto the main stack; the empty map is a
no-op. -/
theorem addItems_chunking_holds :
    addItems (initSM Nat 2) ([] : List (String × Nat)) = initSM Nat 2 ∧
    (splitChunks (initSM Nat 2).chunkSize
        [("a", (1 : Nat)), ("b", 2), ("c", 3)]).flatten =
      [("a", 1), ("b", 2), ("c", 3)] ∧
    (splitChunks (initSM Nat 2).chunkSize
        [("a", (1 : Nat)), ("b", 2), ("c", 3)]).length =
      (([("a", (1 : Nat)), ("b", 2), ("c", 3)] : List (String × Nat)).length +
        (initSM Nat 2).chunkSize - 1) / (initSM Nat 2).chunkSize ∧
    (splitChunks (initSM Nat 2).chunkSize
        [("a", (1 : Nat)), ("b", 2), ("c", 3)]).map List.length =
      List.replicate ((splitChunks (initSM Nat 2).chunkSize
          [("a", (1 : Nat)), ("b", 2), ("c", 3)]).length - 1)
          (initSM Nat 2).chunkSize ++
        [if ([("a", (1 : Nat)), ("b", 2), ("c", 3)] : List (String × Nat)).length %
             (initSM Nat 2).chunkSize = 0 then (initSM Nat 2).chunkSize
         else ([("a", (1 : Nat)), ("b", 2), ("c", 3)] : List (String × Nat)).length %
             (initSM Nat 2).chunkSize] ∧
    (addItems (initSM Nat 2)
        [("a", (1 : Nat)), ("b", 2), ("c", 3)]).storageKeyStack.length = 2 := by
  have h := addItems_chunking (initSM Nat 2)
    [("a", (1 : Nat)), ("b", 2), ("c", 3)] (by decide) (by decide)
  refine ⟨h.1, h.2.1, h.2.2.1, h.2.2.2.1 (by decide), ?_⟩
  rw [h.2.2.2.2]
  decide

/-- The chunk sequence yielded by `getItems`, flattened into one entry list
(missing chunk records contribute nothing). -/
def flattenItems {α : Type} (ps : List (String × Option (Chunk α))) :
    List (String × α) :=
  (ps.map (fun p => p.2.getD [])).flatten

/-- The main chunk key generated for stack position `i`. -/
def mainChunkKey (i : Nat) : String := STORAGE_PREFIX ++ Nat.repr i

/-- Invariant tying a state to the list of chunks added so far, starting from
the empty initial state: the main stack consists of the generated keys in
order, each key's record holds its chunk, and nothing else but the stack
record is persisted. -/
structure AddInv {α : Type} (done : List (Chunk α)) (sm : SM α) : Prop where
  stack_eq : sm.storageKeyStack = (List.range done.length).map mainChunkKey
  chunks : ∀ i, i < done.length →
    storGet sm.storage (mainChunkKey i) = some (SVal.chunk (done.getD i []))
  dom : ∀ k, storGet sm.storage k ≠ none →
    k = STATE_STORAGE_KEY ∨ ∃ i, i < done.length ∧ k = mainChunkKey i

theorem mainChunkKey_injective {i j : Nat}
    (h : mainChunkKey i = mainChunkKey j) : i = j :=
  mainKey_injective h

theorem mainChunkKey_ne_stateKey (i : Nat) :
    mainChunkKey i ≠ STATE_STORAGE_KEY :=
  mainKey_ne_stateKey i

theorem addChunk_inv {α : Type} {done : List (Chunk α)} {sm : SM α}
    (hinv : AddInv done sm) (c : Chunk α) :
    AddInv (done ++ [c]) (addChunk sm c) := by
  have hlen : sm.storageKeyStack.length = done.length := by
    rw [hinv.stack_eq]
    simp
  have hkey : getNextChunkKey sm = mainChunkKey done.length := by
    rw [getNextChunkKey, hlen]
    rfl
  have hstor : (addChunk sm c).storage =
      storSet (storSet sm.storage (mainChunkKey done.length) (SVal.chunk c))
        STATE_STORAGE_KEY
        (SVal.stack ((match storGet sm.storage STATE_STORAGE_KEY with
          | some (SVal.stack s) => s
          | _ => []) ++ [getNextChunkKey sm])) := by
    rw [addChunk]
    simp only [hkey]
  refine ⟨?_, ?_, ?_⟩
  · rw [show (addChunk sm c).storageKeyStack =
      sm.storageKeyStack ++ [getNextChunkKey sm] from rfl]
    rw [hinv.stack_eq, hkey, List.length_append, List.length_singleton,
      List.range_succ, List.map_append, List.map_singleton]
  · intro i hi
    rw [List.length_append, List.length_singleton] at hi
    rw [hstor]
    rcases Nat.lt_or_ge i done.length with hlt | hge
    · have hne : mainChunkKey i ≠ mainChunkKey done.length := by
        intro hh
        have := mainChunkKey_injective hh
        omega
      rw [storGet_storSet_ne _ _ _ (mainChunkKey_ne_stateKey i),
        storGet_storSet_ne _ _ _ hne, hinv.chunks i hlt]
      rw [List.getD_append _ _ _ _ hlt]
    · have hieq : i = done.length := by omega
      rw [hieq]
      rw [storGet_storSet_ne _ _ _ (mainChunkKey_ne_stateKey done.length),
        storGet_storSet_self]
      rw [show (done ++ [c]).getD done.length [] = c by
        simp [List.getD_eq_getElem?_getD, List.getElem?_append_right,
          Nat.le_refl]]
  · intro k hk
    rw [hstor] at hk
    by_cases hks : k = STATE_STORAGE_KEY
    · exact Or.inl hks
    · rw [storGet_storSet_ne _ _ _ hks] at hk
      by_cases hkc : k = mainChunkKey done.length
      · refine Or.inr ⟨done.length, ?_, hkc⟩
        simp
      · rw [storGet_storSet_ne _ _ _ hkc] at hk
        rcases hinv.dom k hk with h | ⟨i, hi, hik⟩
        · exact Or.inl h
        · refine Or.inr ⟨i, ?_, hik⟩
          rw [List.length_append]
          omega

theorem addChunks_inv {α : Type} (cs : List (Chunk α)) :
    ∀ (done : List (Chunk α)) (sm : SM α), AddInv done sm →
      AddInv (done ++ cs) (addChunks sm cs) := by
  induction cs with
  | nil =>
    intro done sm h
    simpa [addChunks] using h
  | cons c cs ih =>
    intro done sm h
    have h1 := ih (done ++ [c]) (addChunk sm c) (addChunk_inv h c)
    rw [show addChunks sm (c :: cs) = addChunks (addChunk sm c) cs from rfl]
    simpa using h1

theorem getItems_of_inv {α : Type} {done : List (Chunk α)} {sm : SM α}
    (hinv : AddInv done sm) :
    flattenItems (getItems sm false) = done.flatten := by
  rw [getItems, if_neg (by simp), List.append_nil, hinv.stack_eq,
    flattenItems]
  congr 1
  apply List.ext_getElem
  · simp
  · intro i h1 h2
    simp only [List.getElem_map, List.getElem_range]
    rw [show getChunk sm.storage (mainChunkKey i) =
      (mainChunkKey i,
        match storGet sm.storage (mainChunkKey i) with
        | some (SVal.chunk c) => some c
        | _ => none) from rfl]
    rw [hinv.chunks i (by simpa using h2)]
    simp [List.getD_eq_getElem?_getD, List.getElem?_eq_getElem h2]

/-- C4: adding any item map (the distinct keys of a JS Map) to an initially
empty state manager with chunk size ≥ 1 and reading it back through
`getItems` with errors excluded yields, after flattening the chunks in
main-stack creation order, exactly the original entries with unchanged
values. -/
theorem addItems_getItems_roundtrip {α : Type} (chunkSize : Nat)
    (pairs : List (String × α)) (hc : 1 ≤ chunkSize)
    (hnd : (keysOf pairs).Nodup) :
    flattenItems (getItems (addItems (initSM α chunkSize) pairs) false) =
      pairs := by
  have hinit : AddInv ([] : List (Chunk α)) (initSM α chunkSize) := by
    refine ⟨rfl, ?_, ?_⟩
    · intro i hi
      exact absurd hi (by simp)
    · intro k hk
      simp [initSM, storGet] at hk
  rcases hp : pairs with _ | ⟨p, ps⟩
  · rw [show addItems (initSM α chunkSize) [] = initSM α chunkSize by
      simp [addItems]]
    exact getItems_of_inv hinit
  · rw [← hp]
    have hne : pairs.isEmpty = false := by
      rw [hp]
      rfl
    rw [show addItems (initSM α chunkSize) pairs =
      addChunks (initSM α chunkSize) (splitChunks chunkSize pairs) by
        simp [addItems, hne, initSM]]
    have hfin := addChunks_inv (splitChunks chunkSize pairs) [] _ hinit
    rw [getItems_of_inv (by simpa using hfin)]
    obtain ⟨c, hceq⟩ : ∃ c, chunkSize = c + 1 := ⟨chunkSize - 1, by omega⟩
    rw [hceq]
    exact splitChunks_flatten c pairs hnd

/-- C4 witness: the concrete scenario — three entries, chunk size two — reads
back unchanged. -/
theorem addItems_getItems_roundtrip_holds :
    flattenItems (getItems
      (addItems (initSM Nat 2) [("a", (1 : Nat)), ("b", 2), ("c", 3)]) false) =
      [("a", (1 : Nat)), ("b", 2), ("c", 3)] :=
  addItems_getItems_roundtrip 2 [("a", (1 : Nat)), ("b", 2), ("c", 3)]
    (by decide) (by decide)

theorem settledKeys_subset (es : List (String × ImportItem)) :
    ∀ (os : List Outcome) (k : String), k ∈ settledKeys es os → k ∈ keysOf es := by
  induction es with
  | nil =>
    intro os k hk
    cases os <;> simp [settledKeys] at hk
  | cons e es ih =>
    intro os k hk
    cases os with
    | nil => simp [settledKeys] at hk
    | cons o os =>
      cases o with
      | cancelled =>
        simp only [settledKeys] at hk
        simp only [keysOf, List.map_cons, List.mem_cons]
        exact Or.inr (ih os k hk)
      | ok s =>
        simp only [settledKeys, List.mem_cons] at hk
        simp only [keysOf, List.map_cons, List.mem_cons]
        rcases hk with h | h
        · exact Or.inl h
        · exact Or.inr (ih os k h)
      | fail m =>
        simp only [settledKeys, List.mem_cons] at hk
        simp only [keysOf, List.map_cons, List.mem_cons]
        rcases hk with h | h
        · exact Or.inl h
        · exact Or.inr (ih os k h)

theorem objDelete_cons (a : String) (b : ImportItem)
    (es : Chunk ImportItem) (k : String) :
    objDelete ((a, b) :: es) k =
      if a = k then objDelete es k else (a, b) :: objDelete es k := by
  by_cases h : a = k <;> simp [objDelete, List.filter_cons, h]

theorem foldl_objDelete_cons_of_ne (ks : List String) :
    ∀ (e : String × ImportItem) (es : Chunk ImportItem),
      (∀ k ∈ ks, k ≠ e.1) →
      ks.foldl objDelete (e :: es) = e :: ks.foldl objDelete es := by
  induction ks with
  | nil => intro e es _; simp
  | cons k ks ih =>
    intro e es hne
    obtain ⟨a, b⟩ := e
    simp only [List.foldl_cons]
    rw [objDelete_cons, if_neg (fun hh => hne k (by simp) hh.symm)]
    exact ih (a, b) (objDelete es k) (fun k' hk' => hne k' (by simp [hk']))

theorem foldl_objDelete_settled :
    ∀ (c : Chunk ImportItem) (os : List Outcome), (keysOf c).Nodup →
      (settledKeys c os).foldl objDelete c = survivors c os
  | _, [], _ => by simp [settledKeys, survivors]
  | [], o :: os, _ => by
    simp [settledKeys, survivors]
  | e :: es, o :: os, hnd => by
    obtain ⟨a, b⟩ := e
    have hnd1 : (keysOf es).Nodup :=
      (List.nodup_cons.mp (by simpa [keysOf] using hnd)).2
    have hnotmem : a ∉ keysOf es :=
      (List.nodup_cons.mp (by simpa [keysOf] using hnd)).1
    cases o with
    | cancelled =>
      simp only [settledKeys, survivors]
      rw [foldl_objDelete_cons_of_ne _ (a, b) es ?_]
      · rw [foldl_objDelete_settled es os hnd1]
      · intro k hk hka
        have hmem : k ∈ keysOf es := settledKeys_subset es os k hk
        rw [hka] at hmem
        exact hnotmem hmem
    | ok s =>
      simp only [settledKeys, survivors, List.foldl_cons]
      rw [objDelete_cons, if_pos rfl, objDelete_of_not_mem es hnotmem]
      exact foldl_objDelete_settled es os hnd1
    | fail m =>
      simp only [settledKeys, survivors, List.foldl_cons]
      rw [objDelete_cons, if_pos rfl, objDelete_of_not_mem es hnotmem]
      exact foldl_objDelete_settled es os hnd1

theorem runChunk_spec (es : List (String × ImportItem)) :
    ∀ (os : List Outcome) (sm : SM ImportItem) (ck : String)
      (d : Chunk ImportItem),
      storGet sm.storage ck = some (SVal.chunk d) →
      storGet (runChunk sm ck es os).1.storage ck =
        some (SVal.chunk ((settledKeys es os).foldl objDelete d)) ∧
      (∀ k, k ≠ ck →
        storGet (runChunk sm ck es os).1.storage k = storGet sm.storage k) ∧
      (runChunk sm ck es os).1.storageKeyStack = sm.storageKeyStack ∧
      (runChunk sm ck es os).1.errStorageKeyStack = sm.errStorageKeyStack ∧
      (runChunk sm ck es os).1.chunkSize = sm.chunkSize ∧
      (runChunk sm ck es os).2 = settledReports es os := by
  induction es with
  | nil =>
    intro os sm ck d h
    cases os with
    | nil => exact ⟨by simpa [runChunk, settledKeys] using h, by simp [runChunk],
        rfl, rfl, rfl, by simp [runChunk, settledReports]⟩
    | cons o os => exact ⟨by simpa [runChunk, settledKeys] using h,
        by simp [runChunk], rfl, rfl, rfl, by simp [runChunk, settledReports]⟩
  | cons e es ih =>
    intro os sm ck d h
    cases os with
    | nil =>
      exact ⟨by simpa [runChunk, settledKeys] using h, by simp [runChunk],
        rfl, rfl, rfl, by simp [runChunk, settledReports]⟩
    | cons o os =>
      cases o with
      | cancelled =>
        have hred : runChunk sm ck (e :: es) (Outcome.cancelled :: os) =
            ((runChunk sm ck es os).1, (runChunk sm ck es os).2) := by
          simp [runChunk, processItem]
        rw [hred]
        have := ih os sm ck d h
        simpa [settledKeys, settledReports] using this
      | ok s =>
        have hget : storGet (removeItem sm ck e.1).1.storage ck =
            some (SVal.chunk (objDelete d e.1)) := by
          simp only [removeItem, h]
          exact storGet_storSet_self _ _ _
        have hoth : ∀ k, k ≠ ck →
            storGet (removeItem sm ck e.1).1.storage k =
              storGet sm.storage k := by
          intro k hk
          simp only [removeItem, h]
          exact storGet_storSet_ne _ _ _ hk
        have hstacks : (removeItem sm ck e.1).1.storageKeyStack =
              sm.storageKeyStack ∧
            (removeItem sm ck e.1).1.errStorageKeyStack =
              sm.errStorageKeyStack ∧
            (removeItem sm ck e.1).1.chunkSize = sm.chunkSize := by
          simp [removeItem, h]
        have hred : runChunk sm ck (e :: es) (Outcome.ok s :: os) =
            ((runChunk (removeItem sm ck e.1).1 ck es os).1,
             { type := e.2.type, url := none, status := some s,
               error := none } ::
               (runChunk (removeItem sm ck e.1).1 ck es os).2) := by
          simp [runChunk, processItem]
        have hih := ih os (removeItem sm ck e.1).1 ck (objDelete d e.1) hget
        rw [hred]
        refine ⟨?_, ?_, hih.2.2.1.trans hstacks.1,
          hih.2.2.2.1.trans hstacks.2.1, hih.2.2.2.2.1.trans hstacks.2.2, ?_⟩
        · simp only [settledKeys, List.foldl_cons]
          exact hih.1
        · intro k hk
          exact (hih.2.1 k hk).trans (hoth k hk)
        · rw [show ((runChunk (removeItem sm ck e.1).1 ck es os).1,
              ({ type := e.2.type, url := none, status := some s,
                 error := none } : Report) ::
                (runChunk (removeItem sm ck e.1).1 ck es os).2).2 =
            ({ type := e.2.type, url := none, status := some s,
               error := none } : Report) ::
              (runChunk (removeItem sm ck e.1).1 ck es os).2 from rfl]
          rw [hih.2.2.2.2.2]
          simp [settledReports]
      | fail m =>
        have hget : storGet (removeItem sm ck e.1).1.storage ck =
            some (SVal.chunk (objDelete d e.1)) := by
          simp only [removeItem, h]
          exact storGet_storSet_self _ _ _
        have hoth : ∀ k, k ≠ ck →
            storGet (removeItem sm ck e.1).1.storage k =
              storGet sm.storage k := by
          intro k hk
          simp only [removeItem, h]
          exact storGet_storSet_ne _ _ _ hk
        have hstacks : (removeItem sm ck e.1).1.storageKeyStack =
              sm.storageKeyStack ∧
            (removeItem sm ck e.1).1.errStorageKeyStack =
              sm.errStorageKeyStack ∧
            (removeItem sm ck e.1).1.chunkSize = sm.chunkSize := by
          simp [removeItem, h]
        have hred : runChunk sm ck (e :: es) (Outcome.fail m :: os) =
            ((runChunk (removeItem sm ck e.1).1 ck es os).1,
             { type := e.2.type, url := none, status := none,
               error := some m } ::
               (runChunk (removeItem sm ck e.1).1 ck es os).2) := by
          simp [runChunk, processItem]
        have hih := ih os (removeItem sm ck e.1).1 ck (objDelete d e.1) hget
        rw [hred]
        refine ⟨?_, ?_, hih.2.2.1.trans hstacks.1,
          hih.2.2.2.1.trans hstacks.2.1, hih.2.2.2.2.1.trans hstacks.2.2, ?_⟩
        · simp only [settledKeys, List.foldl_cons]
          exact hih.1
        · intro k hk
          exact (hih.2.1 k hk).trans (hoth k hk)
        · rw [show ((runChunk (removeItem sm ck e.1).1 ck es os).1,
              ({ type := e.2.type, url := none, status := none,
                 error := some m } : Report) ::
                (runChunk (removeItem sm ck e.1).1 ck es os).2).2 =
            ({ type := e.2.type, url := none, status := none,
               error := some m } : Report) ::
              (runChunk (removeItem sm ck e.1).1 ck es os).2 from rfl]
          rw [hih.2.2.2.2.2]
          simp [settledReports]

theorem startRun_cons_cancelled (sm : SM ImportItem) (ck : String)
    (cks : List String) (sched : List (List Outcome)) (c : Chunk ImportItem)
    (hchunk : storGet sm.storage ck = some (SVal.chunk c))
    (hcanc : chunkCancelled c (sched.headD []) = true) :
    startRun sm (ck :: cks) sched = runChunk sm ck c (sched.headD []) := by
  rw [startRun]
  simp only [hchunk, hcanc, if_true]

/-- C2: when an in-flight item's processing rejects with the dedicated
cancellation signal, that item is neither removed from its chunk nor routed to
an error chunk, no after-item callback is reported for it, and the chunk loop
breaks without touching later chunks; consequently after a `stop()` with some
operations pending exactly the settled items are gone, and the chunk a
subsequent `start()` reads back consists of precisely the cancelled (pending)
items plus those never scheduled. -/
theorem start_cancellation_preserves_pending (sm : SM ImportItem) (ck : String)
    (cks : List String) (c : Chunk ImportItem) (os : List Outcome)
    (hstack : sm.storageKeyStack = ck :: cks)
    (hfresh : ck ∉ cks)
    (hchunk : storGet sm.storage ck = some (SVal.chunk c))
    (hnd : (keysOf c).Nodup)
    (hcanc : chunkCancelled c os = true) :
    storGet (start sm [os]).1.storage ck = some (SVal.chunk (survivors c os)) ∧
    (∀ k, k ≠ ck →
      storGet (start sm [os]).1.storage k = storGet sm.storage k) ∧
    (start sm [os]).1.errStorageKeyStack = sm.errStorageKeyStack ∧
    (start sm [os]).1.storageKeyStack = sm.storageKeyStack ∧
    (start sm [os]).2 = settledReports c os ∧
    getItems (start sm [os]).1 false =
      (ck, some (survivors c os)) :: cks.map (getChunk sm.storage) := by
  have hstart : start sm [os] = runChunk sm ck c os := by
    rw [start, hstack]
    exact startRun_cons_cancelled sm ck cks [os] c hchunk
      (by simpa using hcanc)
  have hrc := runChunk_spec c os sm ck c hchunk
  have hsurv : (settledKeys c os).foldl objDelete c = survivors c os :=
    foldl_objDelete_settled c os hnd
  rw [hsurv] at hrc
  refine ⟨by rw [hstart]; exact hrc.1,
    fun k hk => by rw [hstart]; exact hrc.2.1 k hk,
    by rw [hstart]; exact hrc.2.2.2.1,
    by rw [hstart]; exact hrc.2.2.1,
    by rw [hstart]; exact hrc.2.2.2.2.2, ?_⟩
  rw [getItems, if_neg (by simp), List.append_nil]
  rw [show (start sm [os]).1.storageKeyStack = ck :: cks by
    rw [hstart, hrc.2.2.1, hstack]]
  rw [List.map_cons]
  congr 1
  · rw [hstart]
    simp [getChunk, hrc.1]
  · apply List.map_congr_left
    intro k hk
    have hne : k ≠ ck := fun hh => hfresh (hh ▸ hk)
    rw [hstart]
    simp [getChunk, hrc.2.1 k hne]

/-- C2 witness: a two-chunk state; in the first chunk `a` settles, `b` is
cancelled in flight, `c` was never scheduled — `b` and `c` survive in the
chunk, only `a` is reported, and the second chunk is untouched. -/
theorem start_cancellation_preserves_pending_holds :
    (let sm : SM ImportItem :=
      { chunkSize := 100,
        storageKeyStack := ["import-items-0", "import-items-1"],
        errStorageKeyStack := [],
        storage := [("import-items-0",
            SVal.chunk [("a", ⟨IType.history⟩), ("b", ⟨IType.history⟩),
                        ("c", ⟨IType.bookmark⟩)]),
          ("import-items-1", SVal.chunk [("d", ⟨IType.old⟩)])] }
     let c : Chunk ImportItem :=
      [("a", ⟨IType.history⟩), ("b", ⟨IType.history⟩), ("c", ⟨IType.bookmark⟩)]
     let os : List Outcome := [Outcome.ok 1, Outcome.cancelled]
     storGet (start sm [os]).1.storage "import-items-0" =
       some (SVal.chunk (survivors c os)) ∧
     (start sm [os]).1.errStorageKeyStack = sm.errStorageKeyStack ∧
     (start sm [os]).2 = settledReports c os) := by
  have h := start_cancellation_preserves_pending
    ({ chunkSize := 100,
       storageKeyStack := ["import-items-0", "import-items-1"],
       errStorageKeyStack := [],
       storage := [("import-items-0",
           SVal.chunk [("a", ⟨IType.history⟩), ("b", ⟨IType.history⟩),
                       ("c", ⟨IType.bookmark⟩)]),
         ("import-items-1", SVal.chunk [("d", ⟨IType.old⟩)])] } : SM ImportItem)
    "import-items-0" ["import-items-1"]
    [("a", ⟨IType.history⟩), ("b", ⟨IType.history⟩), ("c", ⟨IType.bookmark⟩)]
    [Outcome.ok 1, Outcome.cancelled]
    rfl (by decide) rfl (by decide) (by decide)
  exact ⟨h.1, h.2.2.1, h.2.2.2.2.1⟩

/-- C9: starting a run with the concurrency accepted by the setter as `n`
(`0 < n ≤ CONCURR_LIMIT`) and no operation in flight, every reachable
scheduler state has at most `n` operations pending, and any step that
advances to the next chunk fires only when the current chunk has no in-flight
and no queued work left. -/
theorem concurrency_bound (old n : Nat) (init s : PMState)
    (hconc : init.concurrency = setConcurrency old n)
    (hn : 0 < n) (hlimit : n ≤ CONCURR_LIMIT)
    (hinflight : init.inflight = 0)
    (hreach : PMReach init s) :
    s.inflight ≤ n ∧
    (∀ s', PMStep s s' → s'.restChunks ≠ s.restChunks →
      s.inflight = 0 ∧ s.queued = 0) := by
  have hcn : init.concurrency = n := by
    rw [hconc, setConcurrency, if_pos ⟨hn, hlimit⟩]
  have main : s.inflight ≤ n ∧ s.concurrency = n := by
    induction hreach with
    | refl => exact ⟨by omega, hcn⟩
    | tail hab hstep ih =>
      obtain ⟨h1, h2⟩ := ih
      rename_i u v
      cases hstep with
      | spawn h hq =>
        refine ⟨?_, by simpa using h2⟩
        rw [h2] at h
        show u.inflight + 1 ≤ n
        omega
      | settle h =>
        refine ⟨?_, by simpa using h2⟩
        show u.inflight - 1 ≤ n
        omega
      | nextChunk m rest hi hq hr =>
        exact ⟨by simpa using h1, by simpa using h2⟩
  refine ⟨main.1, ?_⟩
  intro s' hstep hne
  cases hstep with
  | spawn h hq => exact absurd rfl hne
  | settle h => exact absurd rfl hne
  | nextChunk m rest hi hq hr => exact ⟨hi, hq⟩

/-- C9 witness: a concrete initial state with concurrency set to 2 through the
setter, taken zero steps. -/
theorem concurrency_bound_holds :
    (⟨2, 0, 3, [2]⟩ : PMState).inflight ≤ 2 ∧
    (∀ s', PMStep ⟨2, 0, 3, [2]⟩ s' →
      s'.restChunks ≠ (⟨2, 0, 3, [2]⟩ : PMState).restChunks →
      (⟨2, 0, 3, [2]⟩ : PMState).inflight = 0 ∧
      (⟨2, 0, 3, [2]⟩ : PMState).queued = 0) :=
  concurrency_bound 1 2 ⟨2, 0, 3, [2]⟩ ⟨2, 0, 3, [2]⟩ (by decide) (by decide)
    (by decide) rfl Relation.ReflTransGen.refl

end Memex
